import Mathlib

/-!
Verification of the PAPI-islands-analysis scripts.

Shallow embedding of the algorithmic cores of `jarvis.py`, `detective.py`
and `check-clonal-overpresetation.py`, with theorems settling the
specification claims about them.  Machine floats that only ever hold
integral genomic coordinates are modelled as `Int`; the statistical
routines work over `ℚ`.
-/

namespace Jarvis

/-- BlastHit models one row of the BLAST tabular input of `jarvis.py` after
the `pd.to_numeric` coercion; rows whose coordinates became NaN are skipped
by the loop and are therefore not represented. Only the columns the
region-building loop reads are kept. -/
structure BlastHit where
  subject_id : String
  s_start : Int
  s_end : Int
deriving DecidableEq, Repr, Inhabited

/-- Region is the `current_region` dictionary of `jarvis.py`
(`end` is a Lean keyword, hence the field name `end_`). -/
structure Region where
  subject_id : String
  start : Int
  end_ : Int
deriving DecidableEq, Repr, Inhabited

/-- closeRegion is the `regions.append(current_region)` step of `jarvis.py`
guarded by `if 20000 <= region_size <= 180000`, where
`region_size = current_region["end"] - current_region["start"]`. -/
def closeRegion (regions : List Region) (cur : Region) : List Region :=
  if 20000 ≤ cur.end_ - cur.start ∧ cur.end_ - cur.start ≤ 180000 then
    regions ++ [cur]
  else
    regions

/-- stepRegion is the body of the `for i, row in df.iterrows()` loop of
`jarvis.py` (lines 29-60): state is the pair
(`regions`, `current_region`). -/
def stepRegion : List Region × Option Region → BlastHit → List Region × Option Region
  | (regions, none), row =>
      (regions, some { subject_id := row.subject_id, start := row.s_start, end_ := row.s_end })
  | (regions, some cur), row =>
      if row.subject_id = cur.subject_id ∧ row.s_start - cur.end_ ≤ 110000 then
        (regions, some { cur with end_ := max cur.end_ row.s_end })
      else
        (closeRegion regions cur,
         some { subject_id := row.subject_id, start := row.s_start, end_ := row.s_end })

/-- buildRegions is the whole region-building pass of `jarvis.py`: the loop
over the sorted hits followed by the final-region check after the loop
(lines 62-66). The input list is the DataFrame already sorted by
`subject_id` and `s_start`. -/
def buildRegions (hits : List BlastHit) : List Region :=
  match hits.foldl stepRegion ([], none) with
  | (regions, none) => regions
  | (regions, some cur) => closeRegion regions cur

theorem stepRegion_some_eq (regions : List Region) (cur : Region) (row : BlastHit) :
    stepRegion (regions, some cur) row =
      if row.subject_id = cur.subject_id ∧ row.s_start - cur.end_ ≤ 110000 then
        (regions, some { subject_id := cur.subject_id, start := cur.start,
                         end_ := max cur.end_ row.s_end })
      else
        (closeRegion regions cur,
         some { subject_id := row.subject_id, start := row.s_start, end_ := row.s_end }) :=
  rfl

theorem closeRegion_kept_mem (regions : List Region) (cur r : Region)
    (h : r ∈ closeRegion regions cur)
    (hr : ∀ x ∈ regions, 20000 ≤ x.end_ - x.start ∧ x.end_ - x.start ≤ 180000) :
    20000 ≤ r.end_ - r.start ∧ r.end_ - r.start ≤ 180000 := by
  unfold closeRegion at h
  split at h
  · rcases List.mem_append.1 h with h1 | h1
    · exact hr r h1
    · rcases List.mem_singleton.1 h1 with rfl
      assumption
  · exact hr r h

theorem foldl_stepRegion_window (hits : List BlastHit) :
    ∀ acc : List Region × Option Region,
      (∀ x ∈ acc.1, 20000 ≤ x.end_ - x.start ∧ x.end_ - x.start ≤ 180000) →
      ∀ r ∈ (hits.foldl stepRegion acc).1,
        20000 ≤ r.end_ - r.start ∧ r.end_ - r.start ≤ 180000 := by
  induction hits with
  | nil => intro acc hacc r hr; exact hacc r hr
  | cons h t ih =>
      intro acc hacc r hr
      refine ih (stepRegion acc h) ?_ r hr
      rcases acc with ⟨regions, cur⟩
      rcases cur with _ | cur
      · simpa [stepRegion] using hacc
      · intro x hx
        rw [stepRegion_some_eq] at hx
        split at hx
        · exact hacc x hx
        · exact closeRegion_kept_mem regions cur x hx hacc

theorem buildRegions_window (hits : List BlastHit) :
    ∀ r ∈ buildRegions hits, 20000 ≤ r.end_ - r.start ∧ r.end_ - r.start ≤ 180000 := by
  intro r hr
  unfold buildRegions at hr
  have base : ∀ x ∈ (([], none) : List Region × Option Region).1,
      20000 ≤ x.end_ - x.start ∧ x.end_ - x.start ≤ 180000 := by
    intro x hx; cases hx
  have hfold := foldl_stepRegion_window hits ([], none) base
  rcases hres : hits.foldl stepRegion ([], none) with ⟨regions, cur⟩
  rw [hres] at hr hfold
  rcases cur with _ | cur
  · exact hfold r hr
  · exact closeRegion_kept_mem regions cur r hr hfold

/-- C1 counterexample: the claim reads the merge test as
"gap strictly below 110000", but `jarvis.py` merges on
`s_start - current_region["end"] <= 110000`; a hit at gap exactly 110000
(140000 - 30000) is merged into the current region even though its gap is
not below 110000. -/
theorem jarvis_merge_threshold_counterexample :
    stepRegion ([], some { subject_id := "s", start := 0, end_ := 30000 })
        { subject_id := "s", s_start := 140000, s_end := 150000 } =
      ([], some { subject_id := "s", start := 0, end_ := 150000 })
    ∧ ¬ ((140000 : Int) - 30000 < 110000) := by
  constructor
  · rfl
  · decide

/-- C1 (amended): in the region-building pass of `jarvis.py`, a hit is
merged into the current region exactly when it has the same subject_id and
the gap `s_start - end` is at most 110000 (the threshold is inclusive);
a closed region (also the final one) is retained exactly when its length
`end - start` lies in the window 20000..180000 inclusive, and every region
in the output satisfies that window. -/
theorem jarvis_region_building_rules :
    (∀ (regions : List Region) (cur : Region) (row : BlastHit),
        stepRegion (regions, some cur) row =
          if row.subject_id = cur.subject_id ∧ row.s_start - cur.end_ ≤ 110000 then
            (regions, some { subject_id := cur.subject_id, start := cur.start,
                             end_ := max cur.end_ row.s_end })
          else
            (closeRegion regions cur,
             some { subject_id := row.subject_id, start := row.s_start, end_ := row.s_end }))
    ∧ (∀ (regions : List Region) (cur : Region),
        (closeRegion regions cur = regions ++ [cur] ↔
          20000 ≤ cur.end_ - cur.start ∧ cur.end_ - cur.start ≤ 180000)
        ∧ (closeRegion regions cur = regions ↔
          ¬ (20000 ≤ cur.end_ - cur.start ∧ cur.end_ - cur.start ≤ 180000)))
    ∧ (∀ (hits : List BlastHit), ∀ r ∈ buildRegions hits,
        20000 ≤ r.end_ - r.start ∧ r.end_ - r.start ≤ 180000) := by
  refine ⟨stepRegion_some_eq, ?_, buildRegions_window⟩
  intro regions cur
  unfold closeRegion
  constructor
  · constructor
    · intro h
      by_contra hw
      rw [if_neg hw] at h
      have := congrArg List.length h
      simp at this
    · intro hw
      rw [if_pos hw]
  · constructor
    · intro h
      intro hw
      rw [if_pos hw] at h
      have := congrArg List.length h
      simp at this
    · intro hw
      rw [if_neg hw]

/-- C1 witness: a concrete run of `buildRegions` producing a region, whose
size indeed lies in the retention window. -/
theorem jarvis_region_building_rules_witness :
    (20000 : Int) ≤ 150000 - 0 ∧ (150000 : Int) - 0 ≤ 180000 :=
  jarvis_region_building_rules.2.2
    [{ subject_id := "s", s_start := 0, s_end := 30000 },
     { subject_id := "s", s_start := 140000, s_end := 150000 }]
    { subject_id := "s", start := 0, end_ := 150000 }
    (by decide)

/-- SizeRanges is the `ranges` dictionary of the size-grouping stage of
`jarvis.py` (sizes are `stop - start` integers). -/
def sizeRanges : List (String × Int × Int) :=
  [("20-40k", 20000, 40000),
   ("41-60k", 41000, 60000),
   ("61-80k", 61000, 80000),
   ("81-200k", 81000, 200000)]

/-- assignGroup is the `for range_name, (min_size, max_size) in
ranges.items(): if min_size <= size <= max_size: ...; break` loop of
`jarvis.py`: the region goes to the first matching range, if any. -/
def assignGroup (size : Int) : Option String :=
  sizeRanges.findSome? fun r => if r.2.1 ≤ size ∧ size ≤ r.2.2 then some r.1 else none

/-- C9: the four size ranges of `jarvis.py` are pairwise disjoint (a size
matches at most one range, and the loop appends a region only to the first
matching one), yet any integral size strictly between 40000 and 41000,
60000 and 61000, or 80000 and 81000 — all of which pass the first stage's
20000..180000 retention window — matches no range and is assigned to no
group file. -/
theorem jarvis_size_grouping_gaps :
    (∀ s : Int, (sizeRanges.countP fun r => decide (r.2.1 ≤ s ∧ s ≤ r.2.2)) ≤ 1)
    ∧ (∀ s : Int,
        (40000 < s ∧ s < 41000) ∨ (60000 < s ∧ s < 61000) ∨ (80000 < s ∧ s < 81000) →
        assignGroup s = none ∧ 20000 ≤ s ∧ s ≤ 180000) := by
  constructor
  · intro s
    simp only [sizeRanges, List.countP_cons, List.countP_nil]
    by_cases h1 : (20000 : Int) ≤ s ∧ s ≤ 40000 <;>
      by_cases h2 : (41000 : Int) ≤ s ∧ s ≤ 60000 <;>
        by_cases h3 : (61000 : Int) ≤ s ∧ s ≤ 80000 <;>
          by_cases h4 : (81000 : Int) ≤ s ∧ s ≤ 200000 <;>
            simp [h1, h2, h3, h4] <;> omega
  · intro s hs
    refine ⟨?_, by omega, by omega⟩
    unfold assignGroup sizeRanges
    simp only [List.findSome?_cons, List.findSome?_nil]
    rw [if_neg (by omega), if_neg (by omega), if_neg (by omega), if_neg (by omega)]

/-- C9 witness: size 40500 passes the stage-1 window but is grouped
nowhere. -/
theorem jarvis_size_grouping_gaps_witness :
    assignGroup 40500 = none ∧ (20000 : Int) ≤ 40500 ∧ (40500 : Int) ≤ 180000 :=
  jarvis_size_grouping_gaps.2 40500 (Or.inl (by decide))

/-- stripChars models Python's `str.strip()`: drop leading and trailing
whitespace (Python also strips some further Unicode whitespace, which
never occurs in these files). -/
def stripChars (cs : List Char) : List Char :=
  ((cs.dropWhile Char.isWhitespace).reverse.dropWhile Char.isWhitespace).reverse

/-- splitOnChar models Python's `str.split(sep)` for a one-character
separator: `split` never collapses adjacent separators and yields `[""]`
on the empty string. -/
def splitOnChar (sep : Char) : List Char → List (List Char)
  | [] => [[]]
  | c :: rest =>
      let r := splitOnChar sep rest
      if c = sep then [] :: r else (c :: r.headD []) :: r.tail

/-- parseRegionLine is the body of the `for line in infile` loop of the
size-grouping stage of `jarvis.py` (lines 98-107): `none` models
`continue` on a header/blank line; `Except.error` models an uncaught
`ValueError`, either from unpacking `line.strip().split("\x09")` into
three variables or from `int()`. -/
def parseRegionLine (line : String) : Option (Except String (String × Int × Int)) :=
  if List.isPrefixOf "Accession".data line.data ∨ (stripChars line.data).isEmpty then
    none
  else
    match (splitOnChar '\t' (stripChars line.data)).map List.asString with
    | [accession, start, stop] =>
        match start.toInt?, stop.toInt? with
        | some s, some t => some (Except.ok (accession, s, t))
        | _, _ => some (Except.error "ValueError: invalid literal for int")
    | _ => some (Except.error "ValueError: cannot unpack line into accession, start, stop")

/-- stage1CsvLines is the line content of `regions_output_table.csv` as
written by `regions_df.to_csv(..., index=False)` in the first stage of
`jarvis.py`: a `subject_id,start,end` header followed by one
comma-separated line per retained region. -/
def stage1CsvLines (regions : List Region) : List String :=
  "subject_id,start,end" ::
    regions.map fun r => r.subject_id ++ "," ++ toString r.start ++ "," ++ toString r.end_

/-- C8: on every run of `jarvis.py`, the first line of
`regions_output_table.csv` is the comma-separated header
`subject_id,start,end`; the stage-2 parser does not skip it (it only skips
blank lines and lines starting with `Accession`), splitting it on tab
characters yields a single field, and the three-variable unpack therefore
raises ValueError on this first non-empty line. -/
theorem jarvis_stage2_parser_valueerror (regions : List Region) :
    (stage1CsvLines regions).headD "" = "subject_id,start,end"
    ∧ List.isPrefixOf "Accession".data "subject_id,start,end".data = false
    ∧ (stripChars "subject_id,start,end".data).isEmpty = false
    ∧ (splitOnChar '\t' (stripChars "subject_id,start,end".data)).length = 1
    ∧ parseRegionLine "subject_id,start,end" =
        some (Except.error "ValueError: cannot unpack line into accession, start, stop") := by
  refine ⟨rfl, by decide, by decide, by decide, by rfl⟩

/-- C8 witness: the parser error on the header, instantiated at the empty
region list. -/
theorem jarvis_stage2_parser_valueerror_witness :
    (stage1CsvLines []).headD "" = "subject_id,start,end"
    ∧ List.isPrefixOf "Accession".data "subject_id,start,end".data = false
    ∧ (stripChars "subject_id,start,end".data).isEmpty = false
    ∧ (splitOnChar '\t' (stripChars "subject_id,start,end".data)).length = 1
    ∧ parseRegionLine "subject_id,start,end" =
        some (Except.error "ValueError: cannot unpack line into accession, start, stop") :=
  jarvis_stage2_parser_valueerror []

end Jarvis

namespace Detective

/-- IslandRow models one row of the combined DataFrame of `detective.py`
(one interval per pathogenicity-island file). With
`pd.concat(..., ignore_index=True)` the DataFrame index is 0..n-1, so the
`iterrows` index values compared by `if i >= j` are the list positions. -/
structure IslandRow where
  File : String
  Pathogenicity_Island : String
  Accession : String
  Start : Int
  Stop : Int
deriving DecidableEq, Repr, Inhabited

/-- OverlapRec is the dictionary appended to `overlaps` in
`find_overlaps`. -/
structure OverlapRec where
  File1 : String
  Pathogenicity_Island1 : String
  Accession1 : String
  Start1 : Int
  Stop1 : Int
  File2 : String
  Pathogenicity_Island2 : String
  Accession2 : String
  Start2 : Int
  Stop2 : Int
  Overlap_Size : Int
deriving DecidableEq, Repr

/-- overlapCheck is the overlap test of `find_overlaps`: same `Accession`
and `max(Start1, Start2) <= min(Stop1, Stop2)`. -/
def overlapCheck (r1 r2 : IslandRow) : Bool :=
  decide (r1.Accession = r2.Accession ∧ max r1.Start r2.Start ≤ min r1.Stop r2.Stop)

/-- mkOverlap builds the record appended by `find_overlaps` for an
overlapping pair. -/
def mkOverlap (r1 r2 : IslandRow) : OverlapRec :=
  { File1 := r1.File, Pathogenicity_Island1 := r1.Pathogenicity_Island,
    Accession1 := r1.Accession, Start1 := r1.Start, Stop1 := r1.Stop,
    File2 := r2.File, Pathogenicity_Island2 := r2.Pathogenicity_Island,
    Accession2 := r2.Accession, Start2 := r2.Start, Stop2 := r2.Stop,
    Overlap_Size := min r1.Stop r2.Stop - max r1.Start r2.Start + 1 }

/-- overlapPair is the record, if any, that the pair of row positions
`(i, j)` contributes. -/
def overlapPair (df : List IslandRow) (ij : ℕ × ℕ) : Option OverlapRec :=
  if overlapCheck (df.getD ij.1 default) (df.getD ij.2 default) then
    some (mkOverlap (df.getD ij.1 default) (df.getD ij.2 default))
  else
    none

/-- innerStep is the body of the inner `for j, row2 in df.iterrows()` loop
of `find_overlaps`: skip when `i >= j`, otherwise count the comparison and
append a record when the rows overlap. -/
def innerStep (df : List IslandRow) (i : ℕ) (acc : List OverlapRec × ℕ) (j : ℕ) :
    List OverlapRec × ℕ :=
  if j ≤ i then acc
  else
    match overlapPair df (i, j) with
    | some rec2 => (acc.1 ++ [rec2], acc.2 + 1)
    | none => (acc.1, acc.2 + 1)

/-- find_overlaps is the nested double loop of `detective.py` (lines
11-45); the second component is the `processed_pairs` counter. -/
def find_overlaps (df : List IslandRow) : List OverlapRec × ℕ :=
  (List.range df.length).foldl
    (fun acc i => (List.range df.length).foldl (innerStep df i) acc)
    ([], 0)

/-- pairsLt enumerates the position pairs `(i, j)` with `i < j < n`, in
the order the double loop visits them. -/
def pairsLt (n : ℕ) : List (ℕ × ℕ) :=
  (List.range n).flatMap fun i =>
    ((List.range n).filter fun j => decide (i < j)).map fun j => (i, j)

theorem inner_foldl_eq (df : List IslandRow) (i : ℕ) (l : List ℕ) :
    ∀ acc : List OverlapRec × ℕ,
      l.foldl (innerStep df i) acc =
        (acc.1 ++ ((l.filter fun j => decide (i < j)).filterMap fun j => overlapPair df (i, j)),
         acc.2 + l.countP fun j => decide (i < j)) := by
  induction l with
  | nil => intro acc; simp
  | cons j t ih =>
      intro acc
      rw [List.foldl_cons, ih]
      by_cases hji : j ≤ i
      · have hij : ¬ i < j := by omega
        simp [innerStep, hji, hij, List.countP_cons]
      · have hij : i < j := by omega
        rcases hop : overlapPair df (i, j) with _ | rec2
        · simp [innerStep, hji, hij, hop, List.countP_cons]
          omega
        · simp [innerStep, hji, hij, hop, List.countP_cons]
          omega

theorem outer_foldl_eq (df : List IslandRow) (inner : List ℕ) (l : List ℕ) :
    ∀ acc : List OverlapRec × ℕ,
      l.foldl (fun acc i => inner.foldl (innerStep df i) acc) acc =
        (acc.1 ++ (l.flatMap fun i =>
            (inner.filter fun j => decide (i < j)).filterMap fun j => overlapPair df (i, j)),
         acc.2 + (l.map fun i => inner.countP fun j => decide (i < j)).sum) := by
  induction l with
  | nil => intro acc; simp
  | cons i t ih =>
      intro acc
      rw [List.foldl_cons, ih, inner_foldl_eq]
      simp [List.append_assoc]
      omega

theorem find_overlaps_eq (df : List IslandRow) :
    find_overlaps df =
      ((pairsLt df.length).filterMap fun ij => overlapPair df ij,
       ((List.range df.length).map fun i =>
         (List.range df.length).countP fun j => decide (i < j)).sum) := by
  unfold find_overlaps pairsLt
  rw [List.filterMap_flatMap, outer_foldl_eq]
  simp only [List.filterMap_map, List.nil_append, Nat.zero_add]
  rfl

theorem countP_lt_range (n i : ℕ) :
    ((List.range n).countP fun j => decide (i < j)) = n - (i + 1) := by
  induction n with
  | zero => simp
  | succ n ih =>
      rw [List.range_succ, List.countP_append, ih]
      by_cases h : i < n
      · simp [h]; omega
      · simp [h]; omega

theorem sum_range_list (n : ℕ) : 2 * (List.range n).sum = n * (n - 1) := by
  induction n with
  | zero => simp
  | succ n ih =>
      rw [List.range_succ, List.sum_append]
      rcases n with _ | m
      · simp
      · simp only [List.sum_cons, List.sum_nil]
        have : 2 * ((List.range (m + 1)).sum + (m + 1 + 0)) =
            2 * (List.range (m + 1)).sum + 2 * (m + 1) := by ring
        rw [this, ih]
        have h1 : (m + 1) * (m + 1 - 1) = (m + 1) * m := by simp
        rw [h1]
        have h2 : (m + 1 + 1) * (m + 1 + 1 - 1) = (m + 2) * (m + 1) := by simp
        rw [h2]
        ring

theorem total_comparisons (n : ℕ) :
    ((List.range n).map fun i => (List.range n).countP fun j => decide (i < j)).sum =
      n * (n - 1) / 2 := by
  have hmap : ((List.range n).map fun i => (List.range n).countP fun j => decide (i < j)) =
      (List.range n).map fun i => n - 1 - i := by
    refine List.map_congr_left ?_
    intro i _
    rw [countP_lt_range]
    omega
  rw [hmap]
  have hrev : (List.range n).map (fun i => n - 1 - i) = (List.range n).reverse := by
    have h := List.reverse_range' 0 n
    rw [← List.range_eq_range'] at h
    rw [h]
    refine List.map_congr_left ?_
    intro i _
    omega
  rw [hrev, List.sum_reverse, ← sum_range_list n, Nat.mul_div_cancel_left _ (by omega)]

theorem mem_pairsLt (n i j : ℕ) : (i, j) ∈ pairsLt n ↔ i < j ∧ j < n := by
  unfold pairsLt
  simp only [List.mem_flatMap, List.mem_map, List.mem_filter, List.mem_range]
  constructor
  · rintro ⟨a, ha, b, ⟨hb, hab⟩, heq⟩
    cases heq
    exact ⟨by simpa using hab, hb⟩
  · rintro ⟨hij, hjn⟩
    exact ⟨i, by omega, j, ⟨hjn, by simpa using hij⟩, rfl⟩

theorem nodup_pairsLt (n : ℕ) : (pairsLt n).Nodup := by
  unfold pairsLt
  rw [List.nodup_flatMap]
  constructor
  · intro i _
    refine List.Nodup.map ?_ ((List.nodup_range n).filter _)
    intro a b hab
    simpa using congrArg Prod.snd hab
  · refine (List.nodup_range n).imp ?_
    intro a b hab
    intro x hxa hxb
    rcases List.mem_map.1 hxa with ⟨ja, _, rfl⟩
    rcases List.mem_map.1 hxb with ⟨jb, _, heq⟩
    exact hab (congrArg Prod.fst heq).symm

theorem countP_eq_one_of_nodup_mem {α : Type} [DecidableEq α] {l : List α} {a : α}
    (hnd : l.Nodup) (ha : a ∈ l) : l.countP (fun p => decide (p = a)) = 1 := by
  induction l with
  | nil => cases ha
  | cons x t ih =>
      rw [List.countP_cons]
      rcases List.mem_cons.1 ha with rfl | hat
      · have hx : a ∉ t := (List.nodup_cons.1 hnd).1
        have hz : t.countP (fun p => decide (p = a)) = 0 := by
          rw [List.countP_eq_zero]
          intro b hb
          simp only [decide_eq_true_eq]
          rintro rfl
          exact hx hb
        simp [hz]
      · have hxa : ¬ (x = a) := fun h => (List.nodup_cons.1 hnd).1 (h ▸ hat)
        rw [ih (List.nodup_cons.1 hnd).2 hat]
        simp [hxa]

/-- C3: `find_overlaps` in `detective.py` emits its records by scanning
each position pair `(i, j)` with `i < j` exactly once (the `pairsLt` list
is duplicate-free and holds exactly those pairs); a pair contributes a
record exactly when the two rows share an `Accession` and satisfy
`max(Start_i, Start_j) <= min(Stop_i, Stop_j)`, and the record's
`Overlap_Size` is `min(Stop_i, Stop_j) - max(Start_i, Start_j) + 1`. -/
theorem detective_find_overlaps_spec (df : List IslandRow) :
    ((find_overlaps df).1 = (pairsLt df.length).filterMap fun ij => overlapPair df ij)
    ∧ (∀ i j : ℕ, (i, j) ∈ pairsLt df.length ↔ i < j ∧ j < df.length)
    ∧ (∀ i j : ℕ, i < j → j < df.length →
        (pairsLt df.length).countP (fun p => decide (p = (i, j))) = 1)
    ∧ (∀ ij : ℕ × ℕ,
        overlapPair df ij =
          if overlapCheck (df.getD ij.1 default) (df.getD ij.2 default) then
            some (mkOverlap (df.getD ij.1 default) (df.getD ij.2 default))
          else none)
    ∧ (∀ r1 r2 : IslandRow,
        (overlapCheck r1 r2 = true ↔
          r1.Accession = r2.Accession ∧ max r1.Start r2.Start ≤ min r1.Stop r2.Stop)
        ∧ (mkOverlap r1 r2).Overlap_Size =
            min r1.Stop r2.Stop - max r1.Start r2.Start + 1) := by
  refine ⟨?_, mem_pairsLt df.length, ?_, fun _ => rfl, ?_⟩
  · rw [find_overlaps_eq]
  · intro i j hij hjn
    exact countP_eq_one_of_nodup_mem (nodup_pairsLt df.length)
      ((mem_pairsLt df.length i j).2 ⟨hij, hjn⟩)
  · intro r1 r2
    exact ⟨by simp [overlapCheck], rfl⟩

/-- C3 witness: on a concrete two-row frame the pair (0, 1) is compared
exactly once. -/
theorem detective_find_overlaps_spec_witness :
    (pairsLt ([{ File := "a.tsv", Pathogenicity_Island := "a", Accession := "acc",
                 Start := 1, Stop := 10 },
               { File := "b.tsv", Pathogenicity_Island := "b", Accession := "acc",
                 Start := 5, Stop := 12 }] : List IslandRow).length).countP
        (fun p => decide (p = (0, 1))) = 1 :=
  (detective_find_overlaps_spec _).2.2.1 0 1 (by decide) (by decide)

/-- C6: the `processed_pairs` counter of `find_overlaps` ends at
`total_pairs = n * (n - 1) / 2` — one comparison per unordered pair of
distinct row positions, none for a row with itself. -/
theorem detective_processed_pairs_total (df : List IslandRow) :
    (find_overlaps df).2 = df.length * (df.length - 1) / 2
    ∧ (find_overlaps df).2 = (pairsLt df.length).length := by
  constructor
  · rw [find_overlaps_eq]
    exact total_comparisons df.length
  · rw [find_overlaps_eq]
    unfold pairsLt
    rw [List.length_flatMap]
    refine congrArg List.sum (List.map_congr_left ?_)
    intro i _
    simp [Function.comp, List.countP_eq_length_filter]

end Detective

namespace Clonal

/-!
Embedding of `check-clonal-overpresetation.py`.  A presence/absence
matrix is a list of genome rows over integer entries (the script coerces
to int with `fillna(0).astype(int)`); features are column positions.
-/

/-- colVals is the column `df[f]` of a matrix. -/
def colVals (df : List (List Int)) (f : ℕ) : List Int :=
  df.map fun row => row.getD f 0

/-- boolCol is `df[f].astype(bool)`: an entry is present when nonzero. -/
def boolCol (df : List (List Int)) (f : ℕ) : List Bool :=
  (colVals df f).map fun v => decide (v ≠ 0)

/-- pair_counts is `pair_counts(df, f1, f2)` of
`check-clonal-overpresetation.py`: the 2x2 table (a, b, c, d) =
(both present, first only, second only, neither). -/
def pair_counts (df : List (List Int)) (f1 f2 : ℕ) : ℕ × ℕ × ℕ × ℕ :=
  let x := boolCol df f1
  let y := boolCol df f2
  ((x.zip y).countP fun bc => bc.1 && bc.2,
   (x.zip y).countP fun bc => bc.1 && !bc.2,
   (x.zip y).countP fun bc => !bc.1 && bc.2,
   (x.zip y).countP fun bc => !bc.1 && !bc.2)

/-- haldane_or is `haldane_or(a, b, c, d)`: the odds ratio after the
Haldane-Anscombe +0.5 correction of every cell. -/
def haldane_or (a b c d : ℕ) : ℚ :=
  (((a : ℚ) + 1/2) * ((d : ℚ) + 1/2)) / (((b : ℚ) + 1/2) * ((c : ℚ) + 1/2))

/-- hypergeomProb is the probability of the 2x2 table with first cell `k`
under the hypergeometric null with row sums `r1`, `r2` and first column
sum `c1`. -/
def hypergeomProb (r1 r2 c1 k : ℕ) : ℚ :=
  ((r1.choose k : ℚ) * (r2.choose (c1 - k) : ℚ)) / ((r1 + r2).choose c1 : ℚ)

/-- fisher_p models `fisher_p(a, b, c, d)` =
`scipy.stats.fisher_exact([[a, b], [c, d]], alternative="two-sided")[1]`:
the sum, over all tables with the same margins, of the hypergeometric
probabilities that do not exceed the observed table's probability
(computed exactly over ℚ; scipy computes the same sum in floating
point). -/
def fisher_p (a b c d : ℕ) : ℚ :=
  let r1 := a + b
  let r2 := c + d
  let c1 := a + c
  let p0 := hypergeomProb r1 r2 c1 a
  ((List.range (c1 + 1)).map fun k =>
    if hypergeomProb r1 r2 c1 k ≤ p0 then hypergeomProb r1 r2 c1 k else 0).sum

/-- prevalence is `df.mean(axis=0)` for one column. -/
def prevalence (df : List (List Int)) (f : ℕ) : ℚ :=
  ((colVals df f).sum : ℚ) / (df.length : ℚ)

/-- valid_features is `valid_features(df)` with
`MIN_PREV, MAX_PREV = 0.01, 0.99`: the columns whose prevalence lies in
[0.01, 0.99], in column order. -/
def valid_features (df : List (List Int)) : List ℕ :=
  (List.range (df.headD []).length).filter fun f =>
    decide ((1/100 : ℚ) ≤ prevalence df f ∧ prevalence df f ≤ 99/100)

/-- featuresOf is `features = sorted(set(valid_features(df_full))
.intersection(valid_features(dfc)))`. -/
def featuresOf (df dfc : List (List Int)) : List ℕ :=
  List.insertionSort (fun a b => a ≤ b)
    ((valid_features df).filter fun f => decide (f ∈ valid_features dfc))

/-- validate_features models the `if len(features) < 2: raise
ValueError(...)` guard of `check-clonal-overpresetation.py` (line 69-70):
an `Except.error` is the uncaught ValueError. -/
def validate_features (features : List ℕ) : Except String (List ℕ) :=
  if features.length < 2 then
    Except.error "Too few features after filtering; relax MIN_PREV/MAX_PREV or check matrix."
  else
    Except.ok features

/-- combinations2 is `itertools.combinations(features, 2)` in iteration
order. -/
def combinations2 {α : Type} : List α → List (α × α)
  | [] => []
  | x :: xs => (xs.map fun y => (x, y)) ++ combinations2 xs

/-- PairRow is the dictionary appended to `rows` for one feature pair
(full-matrix and cluster-collapsed statistics side by side). -/
structure PairRow where
  f1 : ℕ
  f2 : ℕ
  a_full : ℕ
  b_full : ℕ
  c_full : ℕ
  d_full : ℕ
  OR_full : ℚ
  p_full : ℚ
  a_clust : ℕ
  b_clust : ℕ
  c_clust : ℕ
  d_clust : ℕ
  OR_cluster : ℚ
  p_cluster : ℚ
deriving DecidableEq, Repr

/-- pairRow is the body of the `for f1, f2 in pairs` loop: the 2x2 table,
Haldane-Anscombe odds ratio and Fisher p-value on the full matrix `df`
and on the cluster-collapsed matrix `dfc`. -/
def pairRow (df dfc : List (List Int)) (fp : ℕ × ℕ) : PairRow :=
  let t := pair_counts df fp.1 fp.2
  let tc := pair_counts dfc fp.1 fp.2
  { f1 := fp.1, f2 := fp.2,
    a_full := t.1, b_full := t.2.1, c_full := t.2.2.1, d_full := t.2.2.2,
    OR_full := haldane_or t.1 t.2.1 t.2.2.1 t.2.2.2,
    p_full := fisher_p t.1 t.2.1 t.2.2.1 t.2.2.2,
    a_clust := tc.1, b_clust := tc.2.1, c_clust := tc.2.2.1, d_clust := tc.2.2.2,
    OR_cluster := haldane_or tc.1 tc.2.1 tc.2.2.1 tc.2.2.2,
    p_cluster := fisher_p tc.1 tc.2.1 tc.2.2.1 tc.2.2.2 }

/-- resRows is the `rows` list: one record per pair of
`itertools.combinations(features, 2)`. -/
def resRows (df dfc : List (List Int)) : List PairRow :=
  (combinations2 (featuresOf df dfc)).map (pairRow df dfc)

/-- C7: the Haldane-Anscombe corrected odds ratio is defined for every
2x2 table of nonnegative counts, equals (a+0.5)(d+0.5)/((b+0.5)(c+0.5)),
is strictly positive, and its denominator is nonzero even when cells are
zero. -/
theorem clonal_haldane_or_pos (a b c d : ℕ) :
    haldane_or a b c d = (((a : ℚ) + 1/2) * ((d : ℚ) + 1/2)) / (((b : ℚ) + 1/2) * ((c : ℚ) + 1/2))
    ∧ 0 < haldane_or a b c d
    ∧ (((b : ℚ) + 1/2) * ((c : ℚ) + 1/2)) ≠ 0 := by
  have ha : (0 : ℚ) < (a : ℚ) + 1/2 := by positivity
  have hb : (0 : ℚ) < (b : ℚ) + 1/2 := by positivity
  have hc : (0 : ℚ) < (c : ℚ) + 1/2 := by positivity
  have hd : (0 : ℚ) < (d : ℚ) + 1/2 := by positivity
  refine ⟨rfl, ?_, ?_⟩
  · exact div_pos (mul_pos ha hd) (mul_pos hb hc)
  · exact ne_of_gt (mul_pos hb hc)

/-- C5 counterexample: `check-clonal-overpresetation.py` raises
ValueError (not merely a print) when fewer than two features survive the
prevalence filter, so failure handling in this repository is not limited
to file-existence checks and print statements. -/
theorem clonal_raise_valueerror_counterexample :
    validate_features [] =
      Except.error "Too few features after filtering; relax MIN_PREV/MAX_PREV or check matrix." :=
  rfl

/-- C5 (amended): most scripts only check file existence and print, but
not all failure handling is print-based: check-clonal-overpresetation.py
raises ValueError exactly when fewer than two features pass the
prevalence filter (and icarus.py catches exceptions around fetching and
cblaster, while viper.py's subprocess.run(check=True) raises on a failed
subprocess). -/
theorem clonal_validate_features_error_iff (features : List ℕ) :
    (∃ msg, validate_features features = Except.error msg) ↔ features.length < 2 := by
  unfold validate_features
  by_cases h : features.length < 2
  · simp [h]
  · simp [h]

theorem getD_mem_of_lt {α : Type} [Inhabited α] (l : List α) (d : α) :
    ∀ k : ℕ, k < l.length → l.getD k d ∈ l := by
  induction l with
  | nil => intro k hk; simp at hk
  | cons x xs ih =>
      intro k hk
      rcases k with _ | k'
      · exact List.mem_cons_self x xs
      · exact List.mem_cons_of_mem x (ih k' (by simpa using hk))

theorem combinations2_mem {α : Type} {l : List α} {x y : α}
    (h : (x, y) ∈ combinations2 l) : x ∈ l ∧ y ∈ l := by
  induction l with
  | nil => cases h
  | cons z zs ih =>
      rcases List.mem_append.1 h with hm | hm
      · rcases List.mem_map.1 hm with ⟨w, hw, heq⟩
        cases heq
        exact ⟨List.mem_cons_self _ _, List.mem_cons_of_mem _ hw⟩
      · rcases ih hm with ⟨h1, h2⟩
        exact ⟨List.mem_cons_of_mem z h1, List.mem_cons_of_mem z h2⟩

theorem combinations2_length {α : Type} (l : List α) :
    (combinations2 l).length = l.length.choose 2 := by
  induction l with
  | nil => rfl
  | cons x xs ih =>
      show ((xs.map fun y => (x, y)) ++ combinations2 xs).length = (xs.length + 1).choose 2
      rw [List.length_append, List.length_map, ih,
        Nat.choose_succ_succ xs.length 1, Nat.choose_one_right]

theorem combinations2_countP (l : List ℕ) (hnd : l.Nodup) :
    ∀ i j : ℕ, i < j → j < l.length →
      (combinations2 l).countP (fun p => decide (p = (l.getD i 0, l.getD j 0))) = 1 := by
  induction l with
  | nil => intro i j hij hj; simp at hj
  | cons x xs ih =>
      intro i j hij hj
      rcases List.nodup_cons.1 hnd with ⟨hx, hxs⟩
      rw [show combinations2 (x :: xs) = (xs.map fun y => (x, y)) ++ combinations2 xs from rfl,
        List.countP_append]
      obtain ⟨j', rfl⟩ : ∃ j', j = j' + 1 := ⟨j - 1, by omega⟩
      rcases i with _ | i'
      · have hj' : j' < xs.length := by
          simpa using hj
        have hmem : xs.getD j' 0 ∈ xs := getD_mem_of_lt xs 0 j' hj'
        have hcmap :
            (xs.map fun y => (x, y)).countP
              (fun p => decide (p = ((x :: xs).getD 0 0, (x :: xs).getD (j' + 1) 0))) = 1 := by
          rw [List.countP_map]
          have hfun : ((fun p => decide (p = ((x :: xs).getD 0 0, (x :: xs).getD (j' + 1) 0)))
                ∘ fun y => (x, y)) = fun y => decide (y = xs.getD j' 0) := by
            funext y
            simp [Prod.ext_iff, List.getD]
          rw [hfun]
          exact Detective.countP_eq_one_of_nodup_mem hxs hmem
        have hczero :
            (combinations2 xs).countP
              (fun p => decide (p = ((x :: xs).getD 0 0, (x :: xs).getD (j' + 1) 0))) = 0 := by
          rw [List.countP_eq_zero]
          intro p hp
          simp only [decide_eq_true_eq]
          rintro rfl
          exact hx (combinations2_mem hp).1
        rw [hcmap, hczero]
      · have hi' : i' < xs.length := by
          have : j' + 1 < xs.length + 1 := by simpa using hj
          omega
        have hmemi : xs.getD i' 0 ∈ xs := getD_mem_of_lt xs 0 i' hi'
        have hcmap :
            (xs.map fun y => (x, y)).countP
              (fun p => decide (p = ((x :: xs).getD (i' + 1) 0, (x :: xs).getD (j' + 1) 0))) = 0 := by
          rw [List.countP_eq_zero]
          intro p hp
          rcases List.mem_map.1 hp with ⟨w, _, heq⟩
          cases heq
          simp only [decide_eq_true_eq]
          intro hpe
          have : x = xs.getD i' 0 := congrArg Prod.fst hpe
          exact hx (this ▸ hmemi)
        have hcrec :
            (combinations2 xs).countP
              (fun p => decide (p = ((x :: xs).getD (i' + 1) 0, (x :: xs).getD (j' + 1) 0))) = 1 := by
          have h1 : (x :: xs).getD (i' + 1) 0 = xs.getD i' 0 := rfl
          have h2 : (x :: xs).getD (j' + 1) 0 = xs.getD j' 0 := rfl
          rw [h1, h2]
          exact ih hxs i' j' (by omega) (by simpa using hj)
        rw [hcmap, hcrec]

/-- bhRel orders positions of the p-value vector by value (ties broken by
position): the comparison behind `np.argsort(p)`. -/
def bhRel (p : List ℚ) (i j : ℕ) : Prop :=
  p.getD i 0 < p.getD j 0 ∨ (p.getD i 0 = p.getD j 0 ∧ i ≤ j)

instance (p : List ℚ) : DecidableRel (bhRel p) := fun i j => by
  unfold bhRel
  infer_instance

instance (p : List ℚ) : IsTotal ℕ (bhRel p) where
  total i j := by
    rcases lt_trichotomy (p.getD i 0) (p.getD j 0) with h | h | h
    · exact Or.inl (Or.inl h)
    · rcases Nat.le_total i j with hij | hij
      · exact Or.inl (Or.inr ⟨h, hij⟩)
      · exact Or.inr (Or.inr ⟨h.symm, hij⟩)
    · exact Or.inr (Or.inl h)

instance (p : List ℚ) : IsTrans ℕ (bhRel p) where
  trans a b c hab hbc := by
    rcases hab with h1 | ⟨h1, h1'⟩ <;> rcases hbc with h2 | ⟨h2, h2'⟩
    · exact Or.inl (lt_trans h1 h2)
    · exact Or.inl (h2 ▸ h1)
    · exact Or.inl (h1 ▸ h2)
    · exact Or.inr ⟨h1.trans h2, le_trans h1' h2'⟩

/-- bhOrder is `order = np.argsort(p)`: the positions of `p` listed in
order of increasing value. -/
def bhOrder (p : List ℚ) : List ℕ :=
  List.insertionSort (bhRel p) (List.range p.length)

/-- sortedPvals is `p[order]`: the p-values in increasing order. -/
def sortedPvals (p : List ℚ) : List ℚ :=
  (bhOrder p).map fun i => p.getD i 0

/-- mulRank scales the j-th (0-based) element by `n / (j + 1)`:
`p[order] * n / (np.arange(n) + 1)` in sorted coordinates. -/
def mulRank (n : ℕ) : ℕ → List ℚ → List ℚ
  | _, [] => []
  | j, a :: rest => a * (n : ℚ) / ((j : ℚ) + 1) :: mulRank n (j + 1) rest

/-- monoPass is the backward monotonicity loop
`for i in range(n-2, -1, -1): ranked[order[i]] = min(ranked[order[i]],
ranked[order[i+1]])`, expressed in sorted coordinates (where, `order`
being injective, it is exactly the suffix-minimum pass). -/
def monoPass : List ℚ → List ℚ
  | [] => []
  | a :: rest =>
      match monoPass rest with
      | [] => [a]
      | b :: t => min a b :: b :: t

/-- clip01 is `np.clip(_, 0, 1)` for one entry. -/
def clip01 (x : ℚ) : ℚ := min (max x 0) 1

/-- bh_fdr is `bh_fdr(pvals)` of `check-clonal-overpresetation.py`: the
Benjamini-Hochberg adjusted values, returned in the original positions
(`ranked[order[i]]` holds the value of sorted rank `i`, so the original
position `i` holds the value of rank `order.indexOf i`). -/
def bh_fdr (p : List ℚ) : List ℚ :=
  let order := bhOrder p
  let m := monoPass (mulRank p.length 0 (sortedPvals p))
  (List.range p.length).map fun i => clip01 (m.getD (order.indexOf i) 0)

/-- listMin is the minimum of a nonempty list (0 on the empty list). -/
def listMin : List ℚ → ℚ
  | [] => 0
  | a :: t => t.foldl min a

/-- bhStd is the textbook Benjamini-Hochberg adjusted value for the
position holding the i-th smallest p-value:
`min(1, min over j >= i of p_(j) * n / (j+1))` (0-based j), with `p_(j)`
the j-th smallest p-value. -/
def bhStd (p : List ℚ) (i : ℕ) : ℚ :=
  min 1 (listMin ((mulRank p.length 0 (List.insertionSort (fun a b => a ≤ b) p)).drop i))

/-- q_full is `res["q_full"] = bh_fdr(res["p_full"].values)`. -/
def q_full (df dfc : List (List Int)) : List ℚ :=
  bh_fdr ((resRows df dfc).map PairRow.p_full)

/-- q_cluster is `res["q_cluster"] = bh_fdr(res["p_cluster"].values)`. -/
def q_cluster (df dfc : List (List Int)) : List ℚ :=
  bh_fdr ((resRows df dfc).map PairRow.p_cluster)

theorem nodup_featuresOf (df dfc : List (List Int)) : (featuresOf df dfc).Nodup := by
  unfold featuresOf
  refine (List.perm_insertionSort _ _).nodup_iff.2 ?_
  exact ((List.nodup_range _).filter _).filter _

theorem mapRange_getD (n : ℕ) (f : ℕ → ℚ) (k : ℕ) (hk : k < n) :
    ((List.range n).map f).getD k 0 = f k := by
  rw [List.getD_eq_getElem?_getD, List.getElem?_map, List.getElem?_range hk]
  rfl

theorem map_getD_range (p : List ℚ) :
    (List.range p.length).map (fun i => p.getD i 0) = p := by
  induction p with
  | nil => rfl
  | cons a t ih =>
      show (List.range (t.length + 1)).map (fun i => (a :: t).getD i 0) = a :: t
      rw [List.range_succ_eq_map, List.map_cons, List.map_map]
      refine congrArg (List.cons a) ?_
      have hfun : ((fun i => (a :: t).getD i 0) ∘ Nat.succ) = fun i => t.getD i 0 := rfl
      rw [hfun, ih]

theorem bhOrder_perm (p : List ℚ) : (bhOrder p).Perm (List.range p.length) :=
  List.perm_insertionSort _ _

theorem bhOrder_length (p : List ℚ) : (bhOrder p).length = p.length := by
  rw [(bhOrder_perm p).length_eq, List.length_range]

theorem bhOrder_nodup (p : List ℚ) : (bhOrder p).Nodup :=
  (bhOrder_perm p).nodup_iff.2 (List.nodup_range _)

theorem bhOrder_mem_lt (p : List ℚ) {k : ℕ} (hk : k ∈ bhOrder p) : k < p.length :=
  List.mem_range.1 ((bhOrder_perm p).mem_iff.1 hk)

theorem sortedPvals_perm (p : List ℚ) : (sortedPvals p).Perm p := by
  have h := (bhOrder_perm p).map fun i => p.getD i 0
  rw [map_getD_range p] at h
  exact h

theorem sortedPvals_sorted (p : List ℚ) :
    List.Sorted (fun a b => a ≤ b) (sortedPvals p) := by
  have h : List.Sorted (bhRel p) (bhOrder p) := List.sorted_insertionSort _ _
  refine List.Pairwise.map _ ?_ h
  intro i j hij
  rcases hij with h1 | ⟨h1, _⟩
  · exact le_of_lt h1
  · exact le_of_eq h1

theorem sortedPvals_eq_insertionSort (p : List ℚ) :
    sortedPvals p = List.insertionSort (fun a b => a ≤ b) p := by
  refine List.eq_of_perm_of_sorted ?_ (sortedPvals_sorted p)
    (List.sorted_insertionSort _ p)
  exact (sortedPvals_perm p).trans (List.perm_insertionSort _ p).symm

theorem mulRank_length (n : ℕ) : ∀ (j : ℕ) (l : List ℚ), (mulRank n j l).length = l.length := by
  intro j l
  induction l generalizing j with
  | nil => rfl
  | cons a t ih =>
      show (mulRank n j (a :: t)).length = t.length + 1
      rw [show mulRank n j (a :: t) = a * (n : ℚ) / ((j : ℚ) + 1) :: mulRank n (j + 1) t from rfl]
      simp [ih]

theorem mulRank_mem_nonneg (n : ℕ) :
    ∀ (l : List ℚ) (j : ℕ) (x : ℚ), (∀ y ∈ l, 0 ≤ y) → x ∈ mulRank n j l → 0 ≤ x := by
  intro l
  induction l with
  | nil => intro j x _ hx; cases hx
  | cons a t ih =>
      intro j x hl hx
      rw [show mulRank n j (a :: t) = a * (n : ℚ) / ((j : ℚ) + 1) :: mulRank n (j + 1) t
        from rfl] at hx
      rcases List.mem_cons.1 hx with rfl | hx
      · have ha : (0 : ℚ) ≤ a := hl a (List.mem_cons_self a t)
        have hj : (0 : ℚ) ≤ (j : ℚ) + 1 := by positivity
        exact div_nonneg (mul_nonneg ha (by positivity)) hj
      · exact ih (j + 1) x (fun y hy => hl y (List.mem_cons_of_mem a hy)) hx

theorem monoPass_length : ∀ l : List ℚ, (monoPass l).length = l.length := by
  intro l
  induction l with
  | nil => rfl
  | cons a t ih =>
      rcases ht : monoPass t with _ | ⟨b, tl⟩
      · have : t.length = 0 := by rw [← ih, ht]; rfl
        have ht0 : t = [] := List.length_eq_zero.1 this
        subst ht0
        rfl
      · show (monoPass (a :: t)).length = t.length + 1
        have hstep : monoPass (a :: t) = min a b :: b :: tl := by
          show (match monoPass t with
                | [] => [a]
                | b :: t2 => min a b :: b :: t2) = min a b :: b :: tl
          rw [ht]
        rw [hstep, ← ih, ht]
        rfl

theorem foldl_min_comm (l : List ℚ) : ∀ a b : ℚ, l.foldl min (min a b) = min a (l.foldl min b) := by
  induction l with
  | nil => intro a b; rfl
  | cons c t ih =>
      intro a b
      show t.foldl min (min (min a b) c) = min a (t.foldl min (min b c))
      rw [min_assoc, ih]

theorem listMin_cons (a : ℚ) (l : List ℚ) (hl : l ≠ []) :
    listMin (a :: l) = min a (listMin l) := by
  rcases l with _ | ⟨c, t⟩
  · exact absurd rfl hl
  · show (c :: t).foldl min a = min a (listMin (c :: t))
    rw [List.foldl_cons, foldl_min_comm]
    rfl

theorem foldl_min_nonneg (l : List ℚ) :
    ∀ a : ℚ, 0 ≤ a → (∀ x ∈ l, 0 ≤ x) → 0 ≤ l.foldl min a := by
  induction l with
  | nil => intro a ha _; exact ha
  | cons c t ih =>
      intro a ha hl
      rw [List.foldl_cons]
      refine ih (min a c) ?_ fun x hx => hl x (List.mem_cons_of_mem c hx)
      exact le_min ha (hl c (List.mem_cons_self c t))

theorem listMin_nonneg (l : List ℚ) (hne : l ≠ []) (hl : ∀ x ∈ l, 0 ≤ x) : 0 ≤ listMin l := by
  rcases l with _ | ⟨a, t⟩
  · exact absurd rfl hne
  · exact foldl_min_nonneg t a (hl a (List.mem_cons_self a t))
      fun x hx => hl x (List.mem_cons_of_mem a hx)

theorem monoPass_getD (l : List ℚ) :
    ∀ i : ℕ, i < l.length → (monoPass l).getD i 0 = listMin (l.drop i) := by
  induction l with
  | nil => intro i hi; simp at hi
  | cons a t ih =>
      intro i hi
      rcases ht : monoPass t with _ | ⟨b, tl⟩
      · have : t.length = 0 := by rw [← monoPass_length t, ht]; rfl
        have ht0 : t = [] := List.length_eq_zero.1 this
        subst ht0
        have hi0 : i = 0 := by
          have h1 : i < 1 := by simpa using hi
          omega
        subst hi0
        rfl
      · have htne : t ≠ [] := by
          intro h0
          rw [h0] at ht
          cases ht
        have hstep : monoPass (a :: t) = min a b :: b :: tl := by
          show (match monoPass t with
                | [] => [a]
                | b :: t2 => min a b :: b :: t2) = min a b :: b :: tl
          rw [ht]
        rcases i with _ | i'
        · rw [hstep]
          show min a b = listMin (a :: t)
          have hb : b = listMin t := by
            have h0 := ih 0 (by
              rcases t with _ | ⟨c, r⟩
              · exact absurd rfl htne
              · simp)
            rw [ht] at h0
            simpa using h0
          rw [listMin_cons a t htne, hb]
        · rw [hstep]
          show (b :: tl).getD i' 0 = listMin (t.drop i')
          rw [← ht]
          exact ih i' (by simpa using hi)

theorem nodup_indexOf_getD (l : List ℕ) (hnd : l.Nodup) :
    ∀ i : ℕ, i < l.length → l.indexOf (l.getD i 0) = i := by
  induction l with
  | nil => intro i hi; simp at hi
  | cons a t ih =>
      intro i hi
      rcases i with _ | i'
      · exact List.indexOf_cons_self a t
      · have hi' : i' < t.length := by simpa using hi
        have hx : t.getD i' 0 ∈ t := getD_mem_of_lt t 0 i' hi'
        have hne : a ≠ t.getD i' 0 := by
          intro h
          exact (List.nodup_cons.1 hnd).1 (h ▸ hx)
        show List.indexOf (t.getD i' 0) (a :: t) = i' + 1
        rw [List.indexOf_cons_ne t hne, ih (List.nodup_cons.1 hnd).2 i' hi']

theorem clip01_bounds (x : ℚ) : 0 ≤ clip01 x ∧ clip01 x ≤ 1 := by
  unfold clip01
  constructor
  · exact le_min (le_max_right x 0) (by norm_num)
  · exact min_le_right _ 1

theorem clip01_of_nonneg (x : ℚ) (hx : 0 ≤ x) : clip01 x = min 1 x := by
  unfold clip01
  rw [max_eq_left hx, min_comm]

theorem bh_fdr_getD_order (p : List ℚ) (i : ℕ) (hi : i < p.length) :
    (bh_fdr p).getD ((bhOrder p).getD i 0) 0 =
      clip01 ((monoPass (mulRank p.length 0 (sortedPvals p))).getD i 0) := by
  have hk : (bhOrder p).getD i 0 < p.length :=
    bhOrder_mem_lt p (getD_mem_of_lt (bhOrder p) 0 i (by rw [bhOrder_length]; exact hi))
  show ((List.range p.length).map fun k =>
      clip01 ((monoPass (mulRank p.length 0 (sortedPvals p))).getD
        ((bhOrder p).indexOf k) 0)).getD ((bhOrder p).getD i 0) 0 = _
  rw [mapRange_getD _ _ _ hk,
    nodup_indexOf_getD (bhOrder p) (bhOrder_nodup p) i (by rw [bhOrder_length]; exact hi)]

/-- C4: `bh_fdr` of `check-clonal-overpresetation.py` computes the
standard Benjamini-Hochberg adjustment: for every vector of p-values (in
[0, 1]), the output at the position holding the i-th smallest p-value is
`min(1, min over j >= i of p_(j) * n / (j + 1))` (0-based ranks, `p_(j)`
the j-th smallest value), and all outputs lie in [0, 1]. -/
theorem clonal_bh_fdr_std (p : List ℚ) (hp : ∀ x ∈ p, 0 ≤ x ∧ x ≤ 1) :
    (∀ i : ℕ, i < p.length → (bh_fdr p).getD ((bhOrder p).getD i 0) 0 = bhStd p i)
    ∧ (∀ q ∈ bh_fdr p, 0 ≤ q ∧ q ≤ 1) := by
  constructor
  · intro i hi
    rw [bh_fdr_getD_order p i hi]
    have hlen : (mulRank p.length 0 (sortedPvals p)).length = p.length := by
      rw [mulRank_length]
      unfold sortedPvals
      rw [List.length_map, bhOrder_length]
    rw [monoPass_getD _ i (by rw [hlen]; exact hi)]
    have hdrop_ne : (mulRank p.length 0 (sortedPvals p)).drop i ≠ [] := by
      intro h0
      rw [List.drop_eq_nil_iff, hlen] at h0
      omega
    have hnonneg : ∀ x ∈ (mulRank p.length 0 (sortedPvals p)).drop i, (0 : ℚ) ≤ x := by
      intro x hx
      refine mulRank_mem_nonneg p.length (sortedPvals p) 0 x ?_ (List.mem_of_mem_drop hx)
      intro y hy
      exact (hp y ((sortedPvals_perm p).mem_iff.1 hy)).1
    rw [clip01_of_nonneg _ (listMin_nonneg _ hdrop_ne hnonneg)]
    unfold bhStd
    rw [← sortedPvals_eq_insertionSort]
  · intro q hq
    rcases List.mem_map.1 hq with ⟨k, _, rfl⟩
    exact clip01_bounds _

/-- C4 witness: the theorem applied to the concrete vector [1, 0]. -/
theorem clonal_bh_fdr_std_witness :
    (bh_fdr [(1 : ℚ), 0]).getD ((bhOrder [(1 : ℚ), 0]).getD 0 0) 0 = bhStd [(1 : ℚ), 0] 0 :=
  (clonal_bh_fdr_std [(1 : ℚ), 0] (by norm_num)).1 0 (by norm_num)

/-- C2: for each unordered pair of prevalence-filtered features
(`itertools.combinations(features, 2)` visits every unordered pair of the
duplicate-free feature list exactly once), the script computes the 2x2
joint presence/absence table (a, b, c, d), the Haldane-Anscombe corrected
odds ratio and Fisher's exact two-sided p-value — on the full and the
cluster-collapsed matrix — and applies Benjamini-Hochberg correction
across the p-values of all pairs. -/
theorem clonal_pairwise_pipeline (df dfc : List (List Int)) :
    (resRows df dfc = (combinations2 (featuresOf df dfc)).map (pairRow df dfc))
    ∧ ((combinations2 (featuresOf df dfc)).length = ((featuresOf df dfc).length).choose 2)
    ∧ (∀ i j : ℕ, i < j → j < (featuresOf df dfc).length →
        (combinations2 (featuresOf df dfc)).countP
          (fun q =>
            decide (q = ((featuresOf df dfc).getD i 0, (featuresOf df dfc).getD j 0))) = 1)
    ∧ (∀ fp : ℕ × ℕ,
        pairRow df dfc fp =
          { f1 := fp.1, f2 := fp.2,
            a_full := (pair_counts df fp.1 fp.2).1,
            b_full := (pair_counts df fp.1 fp.2).2.1,
            c_full := (pair_counts df fp.1 fp.2).2.2.1,
            d_full := (pair_counts df fp.1 fp.2).2.2.2,
            OR_full := haldane_or (pair_counts df fp.1 fp.2).1 (pair_counts df fp.1 fp.2).2.1
              (pair_counts df fp.1 fp.2).2.2.1 (pair_counts df fp.1 fp.2).2.2.2,
            p_full := fisher_p (pair_counts df fp.1 fp.2).1 (pair_counts df fp.1 fp.2).2.1
              (pair_counts df fp.1 fp.2).2.2.1 (pair_counts df fp.1 fp.2).2.2.2,
            a_clust := (pair_counts dfc fp.1 fp.2).1,
            b_clust := (pair_counts dfc fp.1 fp.2).2.1,
            c_clust := (pair_counts dfc fp.1 fp.2).2.2.1,
            d_clust := (pair_counts dfc fp.1 fp.2).2.2.2,
            OR_cluster := haldane_or (pair_counts dfc fp.1 fp.2).1 (pair_counts dfc fp.1 fp.2).2.1
              (pair_counts dfc fp.1 fp.2).2.2.1 (pair_counts dfc fp.1 fp.2).2.2.2,
            p_cluster := fisher_p (pair_counts dfc fp.1 fp.2).1 (pair_counts dfc fp.1 fp.2).2.1
              (pair_counts dfc fp.1 fp.2).2.2.1 (pair_counts dfc fp.1 fp.2).2.2.2 })
    ∧ q_full df dfc = bh_fdr ((resRows df dfc).map PairRow.p_full)
    ∧ q_cluster df dfc = bh_fdr ((resRows df dfc).map PairRow.p_cluster) :=
  ⟨rfl, combinations2_length _,
   combinations2_countP _ (nodup_featuresOf df dfc),
   fun _ => rfl, rfl, rfl⟩

theorem featuresOf_example :
    featuresOf [[1, 0], [0, 1], [1, 1], [0, 0]] [[1, 0], [0, 1], [1, 1], [0, 0]] = [0, 1] := by
  norm_num [featuresOf, valid_features, prevalence, colVals, List.insertionSort,
    List.orderedInsert, List.range_succ]

/-- C2 witness: on a concrete 4-genome, 2-feature matrix both features
survive the prevalence filter and their pair appears exactly once. -/
theorem clonal_pairwise_pipeline_witness :
    (combinations2
        (featuresOf [[1, 0], [0, 1], [1, 1], [0, 0]] [[1, 0], [0, 1], [1, 1], [0, 0]])).countP
      (fun q =>
        decide (q =
          ((featuresOf [[1, 0], [0, 1], [1, 1], [0, 0]] [[1, 0], [0, 1], [1, 1], [0, 0]]).getD 0 0,
           (featuresOf [[1, 0], [0, 1], [1, 1], [0, 0]]
              [[1, 0], [0, 1], [1, 1], [0, 0]]).getD 1 0))) = 1 :=
  (clonal_pairwise_pipeline [[1, 0], [0, 1], [1, 1], [0, 0]]
      [[1, 0], [0, 1], [1, 1], [0, 0]]).2.2.1 0 1 (by decide)
    (by rw [featuresOf_example]; decide)

/-- decDigitsAux is a fuel-driven little-endian base-10 digit expansion
(the fuel argument only drives structural recursion; with fuel ≥ n it
agrees with `Nat.digits 10 n`). -/
def decDigitsAux : ℕ → ℕ → List ℕ
  | _, 0 => []
  | 0, _ + 1 => []
  | fuel + 1, n + 1 => (n + 1) % 10 :: decDigitsAux fuel ((n + 1) / 10)

/-- natToDec renders a natural number in decimal, as Python's `str` /
f-string formatting does. -/
def natToDec (n : ℕ) : String :=
  if n = 0 then "0" else ((decDigitsAux n n).reverse.map Nat.digitChar).asString

/-- sname is the candidate singleton cluster id `f"singleton_{i}"`. -/
def sname (i : ℕ) : String :=
  "singleton_" ++ natToDec i

/-- freshIndex is the `while cid in existing: next_i += 1; cid = ...`
loop: starting from `i`, the first index whose singleton name is not an
existing cluster id (the fuel bound `existing.length + 1` always
suffices, see `freshIndex_fresh`). -/
def freshIndex (existing : List String) : ℕ → ℕ → ℕ
  | 0, i => i
  | fuel + 1, i => if sname i ∈ existing then freshIndex existing fuel (i + 1) else i

/-- addMissing is the `for g in missing` loop of
`check-clonal-overpresetation.py` (lines 44-52): each missing genome gets
the next free singleton id, which is immediately added to the set of
existing ids, and the counter resumes after the chosen index. -/
def addMissing : List String → ℕ → List String → List (String × String)
  | _, _, [] => []
  | existing, next_i, g :: gs =>
      let k := freshIndex existing (existing.length + 1) next_i
      (g, sname k) :: addMissing (existing ++ [sname k]) (k + 1) gs

/-- missingOf is `missing = sorted(set(df_full.index) -
set(cluster_map["genome_id"]))`. -/
def missingOf (index : List String) (cm : List (String × String)) : List String :=
  List.insertionSort (fun a b => a ≤ b)
    (index.dedup.filter fun g => decide (g ∉ cm.map Prod.fst))

/-- updatedClusterMap is `cluster_map = pd.concat([cluster_map,
pd.DataFrame(add_rows)], ignore_index=True)`: the original rows followed
by the new singleton assignments. -/
def updatedClusterMap (cm : List (String × String)) (index : List String) :
    List (String × String) :=
  cm ++ addMissing (cm.map Prod.snd) 1 (missingOf index cm)

theorem decDigitsAux_eq_digits : ∀ (fuel n : ℕ), n ≤ fuel →
    decDigitsAux fuel n = Nat.digits 10 n := by
  intro fuel
  induction fuel with
  | zero =>
      intro n hn
      have h0 : n = 0 := by omega
      subst h0
      exact (Nat.digits_zero 10).symm
  | succ f ih =>
      intro n hn
      rcases n with _ | m
      · exact (Nat.digits_zero 10).symm
      · rw [show decDigitsAux (f + 1) (m + 1) =
            (m + 1) % 10 :: decDigitsAux f ((m + 1) / 10) from rfl]
        rw [Nat.digits_def' (by norm_num : (1 : ℕ) < 10) (Nat.succ_pos m)]
        refine congrArg (List.cons _) ?_
        refine ih ((m + 1) / 10) ?_
        have := Nat.div_lt_self (Nat.succ_pos m) (by norm_num : (1 : ℕ) < 10)
        omega

theorem digitChar_map_injective :
    ∀ (l1 l2 : List ℕ), (∀ d ∈ l1, d < 10) → (∀ d ∈ l2, d < 10) →
      l1.map Nat.digitChar = l2.map Nat.digitChar → l1 = l2 := by
  intro l1
  induction l1 with
  | nil =>
      intro l2 _ _ h
      rcases l2 with _ | ⟨y, ys⟩
      · rfl
      · cases h
  | cons x xs ih =>
      intro l2 h1 h2 h
      rcases l2 with _ | ⟨y, ys⟩
      · cases h
      · rw [List.map_cons, List.map_cons] at h
        have hx := h1 x (List.mem_cons_self x xs)
        have hy := h2 y (List.mem_cons_self y ys)
        have hhead : Nat.digitChar x = Nat.digitChar y := by
          injection h
        have hxy : x = y := by
          interval_cases x <;> interval_cases y <;>
            first | rfl | (exfalso; exact absurd hhead (by decide))
        have htail : xs.map Nat.digitChar = ys.map Nat.digitChar := by
          injection h
        rw [hxy, ih ys (fun d hd => h1 d (List.mem_cons_of_mem x hd))
          (fun d hd => h2 d (List.mem_cons_of_mem y hd)) htail]

theorem eq_zero_of_digitChar_rev_eq_zero_str (m : ℕ)
    (h : ((Nat.digits 10 m).reverse.map Nat.digitChar) = "0".data) : m = 0 := by
  have hdat : "0".data = ['0'] := rfl
  rw [hdat] at h
  have hd : Nat.digits 10 m = [0] := by
    rcases hds : Nat.digits 10 m with _ | ⟨d, ds⟩
    · rw [hds] at h
      cases h
    · rcases ds with _ | ⟨d2, ds2⟩
      · rw [hds] at h
        have hd0 : Nat.digitChar d = '0' := by
          simpa using h
        have hlt : d < 10 := Nat.digits_lt_base (by norm_num)
          (by rw [hds]; exact List.mem_cons_self d [])
        have hdz : d = 0 := by
          interval_cases d <;> first | rfl | (exfalso; exact absurd hd0 (by decide))
        rw [hdz]
      · rw [hds] at h
        exfalso
        have hlen := congrArg List.length h
        simp at hlen
  have h0 := Nat.ofDigits_digits 10 m
  rw [hd] at h0
  simpa using h0.symm

theorem natToDec_injective : Function.Injective natToDec := by
  intro a b hab
  unfold natToDec at hab
  have hmap : ∀ m : ℕ,
      ((decDigitsAux m m).reverse.map Nat.digitChar).asString =
        ((Nat.digits 10 m).reverse.map Nat.digitChar).asString := by
    intro m
    rw [decDigitsAux_eq_digits m m le_rfl]
  by_cases ha : a = 0 <;> by_cases hb : b = 0
  · omega
  · rw [if_pos ha, if_neg hb, hmap b] at hab
    exfalso
    have hchars : (Nat.digits 10 b).reverse.map Nat.digitChar = "0".data :=
      List.asString_eq.1 hab.symm
    exact hb (eq_zero_of_digitChar_rev_eq_zero_str b hchars)
  · rw [if_neg ha, if_pos hb, hmap a] at hab
    exfalso
    have hchars : (Nat.digits 10 a).reverse.map Nat.digitChar = "0".data :=
      List.asString_eq.1 hab
    exact ha (eq_zero_of_digitChar_rev_eq_zero_str a hchars)
  · rw [if_neg ha, if_neg hb, hmap a, hmap b] at hab
    have hchars := List.asString_inj.1 hab
    have hda : ∀ d ∈ (Nat.digits 10 a).reverse, d < 10 := fun d hd =>
      Nat.digits_lt_base (by norm_num) (List.mem_reverse.1 hd)
    have hdb : ∀ d ∈ (Nat.digits 10 b).reverse, d < 10 := fun d hd =>
      Nat.digits_lt_base (by norm_num) (List.mem_reverse.1 hd)
    have hreq := digitChar_map_injective _ _ hda hdb hchars
    have hdig : Nat.digits 10 a = Nat.digits 10 b := by
      have hr := congrArg List.reverse hreq
      simpa using hr
    exact Nat.digits_inj_iff.1 hdig

theorem sname_injective : Function.Injective sname := by
  intro a b hab
  unfold sname at hab
  have hdata := congrArg String.data hab
  rw [String.data_append, String.data_append] at hdata
  have hdd : (natToDec a).data = (natToDec b).data := List.append_cancel_left hdata
  exact natToDec_injective (String.ext hdd)

theorem freshIndex_fresh (existing : List String) :
    ∀ (fuel i : ℕ),
      ((Finset.Ico i (i + fuel)).filter fun j => sname j ∈ existing).card < fuel →
      sname (freshIndex existing fuel i) ∉ existing := by
  intro fuel
  induction fuel with
  | zero => intro i hcard; simp at hcard
  | succ f ih =>
      intro i hcard
      rw [show freshIndex existing (f + 1) i =
          if sname i ∈ existing then freshIndex existing f (i + 1) else i from rfl]
      by_cases hmem : sname i ∈ existing
      · rw [if_pos hmem]
        refine ih (i + 1) ?_
        have hsub : insert i ((Finset.Ico (i + 1) (i + 1 + f)).filter fun j => sname j ∈ existing)
            ⊆ (Finset.Ico i (i + (f + 1))).filter fun j => sname j ∈ existing := by
          intro x hx
          rcases Finset.mem_insert.1 hx with rfl | hx
          · exact Finset.mem_filter.2 ⟨Finset.mem_Ico.2 ⟨le_rfl, by omega⟩, hmem⟩
          · rcases Finset.mem_filter.1 hx with ⟨hx1, hx2⟩
            rcases Finset.mem_Ico.1 hx1 with ⟨hx3, hx4⟩
            exact Finset.mem_filter.2 ⟨Finset.mem_Ico.2 ⟨by omega, by omega⟩, hx2⟩
        have hnotmem : i ∉ (Finset.Ico (i + 1) (i + 1 + f)).filter fun j => sname j ∈ existing := by
          intro hx
          rcases Finset.mem_filter.1 hx with ⟨hx1, _⟩
          rcases Finset.mem_Ico.1 hx1 with ⟨hx2, _⟩
          omega
        have hcard2 := Finset.card_le_card hsub
        rw [Finset.card_insert_of_not_mem hnotmem] at hcard2
        omega
      · rw [if_neg hmem]
        exact hmem

theorem card_filter_sname_le (existing : List String) (i fuel : ℕ) :
    ((Finset.Ico i (i + fuel)).filter fun j => sname j ∈ existing).card ≤
      existing.dedup.length := by
  rw [← List.card_toFinset]
  refine Finset.card_le_card_of_injOn sname ?_ ?_
  · intro a ha
    rcases Finset.mem_filter.1 ha with ⟨_, ha2⟩
    exact List.mem_toFinset.2 ha2
  · intro a _ b _ hab
    exact sname_injective hab

theorem freshIndex_default_fresh (existing : List String) (i : ℕ) :
    sname (freshIndex existing (existing.length + 1) i) ∉ existing := by
  refine freshIndex_fresh existing (existing.length + 1) i ?_
  have h1 := card_filter_sname_le existing i (existing.length + 1)
  have h2 : existing.dedup.length ≤ existing.length :=
    existing.dedup_sublist.length_le
  omega

theorem addMissing_spec :
    ∀ (missing existing : List String) (next_i : ℕ),
      ((addMissing existing next_i missing).map Prod.fst = missing)
      ∧ ((addMissing existing next_i missing).map Prod.snd).Nodup
      ∧ (∀ c ∈ (addMissing existing next_i missing).map Prod.snd, c ∉ existing) := by
  intro missing
  induction missing with
  | nil => intro existing next_i; exact ⟨rfl, List.nodup_nil, by intro c hc; cases hc⟩
  | cons g gs ih =>
      intro existing next_i
      rw [show addMissing existing next_i (g :: gs) =
          (g, sname (freshIndex existing (existing.length + 1) next_i)) ::
            addMissing (existing ++ [sname (freshIndex existing (existing.length + 1) next_i)])
              (freshIndex existing (existing.length + 1) next_i + 1) gs from rfl]
      set k := freshIndex existing (existing.length + 1) next_i with hk
      rcases ih (existing ++ [sname k]) (k + 1) with ⟨ih1, ih2, ih3⟩
      refine ⟨by rw [List.map_cons, ih1], ?_, ?_⟩
      · rw [List.map_cons]
        refine List.nodup_cons.2 ⟨?_, ih2⟩
        intro hmem
        exact ih3 (sname k) hmem (List.mem_append_right existing (List.mem_singleton.2 rfl))
      · rw [List.map_cons]
        intro c hc
        rcases List.mem_cons.1 hc with rfl | hc
        · exact freshIndex_default_fresh existing next_i
        · intro hcex
          exact ih3 c hc (List.mem_append_left _ hcex)

/-- C10: after the missing-genome handling of
`check-clonal-overpresetation.py`, every genome of the matrix index has a
cluster assignment in the updated cluster map, and the newly generated
singleton ids are pairwise distinct and distinct from every pre-existing
cluster id. -/
theorem clonal_singleton_assignment (index : List String) (cm : List (String × String)) :
    (∀ g ∈ index, g ∈ (updatedClusterMap cm index).map Prod.fst)
    ∧ ((addMissing (cm.map Prod.snd) 1 (missingOf index cm)).map Prod.snd).Nodup
    ∧ (∀ c ∈ (addMissing (cm.map Prod.snd) 1 (missingOf index cm)).map Prod.snd,
        c ∉ cm.map Prod.snd) := by
  rcases addMissing_spec (missingOf index cm) (cm.map Prod.snd) 1 with ⟨h1, h2, h3⟩
  refine ⟨?_, h2, h3⟩
  intro g hg
  unfold updatedClusterMap
  rw [List.map_append]
  by_cases hcm : g ∈ cm.map Prod.fst
  · exact List.mem_append_left _ hcm
  · refine List.mem_append_right _ ?_
    rw [h1]
    unfold missingOf
    refine (List.perm_insertionSort _ _).mem_iff.2 ?_
    refine List.mem_filter.2 ⟨List.mem_dedup.2 hg, by simpa using hcm⟩

/-- C10 witness: a concrete index with one genome missing from the
cluster map. -/
theorem clonal_singleton_assignment_witness :
    "g2" ∈ (updatedClusterMap [("g1", "c1")] ["g1", "g2"]).map Prod.fst :=
  (clonal_singleton_assignment ["g1", "g2"] [("g1", "c1")]).1 "g2"
    (List.mem_cons_of_mem _ (List.mem_cons_self _ _))

end Clonal
